import Mathlib

/-
Formal model of the semantic-search core of the elysium-mcp repository:
the Harmonic Token Projection embedding (src/search/embedding.rs), the
SQLite-backed vector store (src/search/vectordb.rs) and the indexing /
query orchestration (src/search/engine.rs).

Modelling conventions:
* Rust `f32` / `f64` arithmetic is idealised as exact real arithmetic (ℝ);
  byte-level serialisation of `f32` values is modelled separately on their
  IEEE-754 bit patterns (naturals below 2^32).
* Rust `u64` wrap-around arithmetic is modelled as arithmetic modulo 2^64.
* Text (`&str`) is modelled as a list of Unicode scalar values (`List Char`).
* SQLite tables are modelled as association lists in insertion / rowid
  order; the exact SQL statements of vectordb.rs are translated clause by
  clause at each operation.
-/

namespace Elysium

/-! ## embedding.rs -/

/-- Embedding dimension, `EMBEDDING_DIM` in embedding.rs (2 * number of
coprime moduli). -/
def EMBEDDING_DIM : Nat := 384

/-- Number of coprime moduli for harmonic projection, `NUM_MODULI`. -/
def NUM_MODULI : Nat := EMBEDDING_DIM / 2

/-- Maximum token length in Unicode code points, `MAX_TOKEN_LENGTH`. -/
def MAX_TOKEN_LENGTH : Nat := 64

/-- The static table `COPRIME_MODULI` of embedding.rs: the first 192
primes, written out verbatim from the source. -/
def COPRIME_MODULI : List Nat := [
  2, 3, 5, 7, 11, 13, 17, 19, 23, 29, 31, 37, 41, 43, 47, 53, 59, 61, 67, 71,
  73, 79, 83, 89, 97, 101, 103, 107, 109, 113, 127, 131, 137, 139, 149, 151,
  157, 163, 167, 173, 179, 181, 191, 193, 197, 199, 211, 223, 227, 229, 233,
  239, 241, 251, 257, 263, 269, 271, 277, 281, 283, 293, 307, 311, 313, 317,
  331, 337, 347, 349, 353, 359, 367, 373, 379, 383, 389, 397, 401, 409, 419,
  421, 431, 433, 439, 443, 449, 457, 461, 463, 467, 479, 487, 491, 499, 503,
  509, 521, 523, 541, 547, 557, 563, 569, 571, 577, 587, 593, 599, 601, 607,
  613, 617, 619, 631, 641, 643, 647, 653, 659, 661, 673, 677, 683, 691, 701,
  709, 719, 727, 733, 739, 743, 751, 757, 761, 769, 773, 787, 797, 809, 811,
  821, 823, 827, 829, 839, 853, 857, 859, 863, 877, 881, 883, 887, 907, 911,
  919, 929, 937, 941, 947, 953, 967, 971, 977, 983, 991, 997, 1009, 1013,
  1019, 1021, 1031, 1033, 1039, 1049, 1051, 1061, 1063, 1069, 1087, 1091,
  1093, 1097, 1103, 1109, 1117, 1123, 1129, 1151, 1153, 1163, 1171, 1181]

/-- Rust `char::is_whitespace`: membership in the Unicode `White_Space`
property (the 25 code points with that property). -/
def isRustWhitespace (c : Char) : Bool :=
  let n := c.toNat
  (9 ≤ n && n ≤ 13) || n == 32 || n == 133 || n == 160 || n == 5760 ||
  (8192 ≤ n && n ≤ 8202) || n == 8232 || n == 8233 || n == 8239 ||
  n == 8287 || n == 12288

/-- Rust `char::is_ascii_punctuation`: the four ASCII punctuation ranges
`!..=/`, `:..=@`, `[..=\x60` and `\x7b..=~`. -/
def isAsciiPunct (c : Char) : Bool :=
  let n := c.toNat
  (33 ≤ n && n ≤ 47) || (58 ≤ n && n ≤ 64) || (91 ≤ n && n ≤ 96) ||
  (123 ≤ n && n ≤ 126)

/-- The separator predicate used by `tokenize` in embedding.rs:
`c.is_whitespace() || c.is_ascii_punctuation()`. -/
def isSplitChar (c : Char) : Bool := isRustWhitespace c || isAsciiPunct c

/-- Rust `str::split(pred)` on a character list: the fragments between
separator characters, keeping empty fragments (leading, trailing, and
between adjacent separators), with the separators removed. -/
def strSplit (p : Char → Bool) : List Char → List (List Char)
  | [] => [[]]
  | c :: cs =>
    if p c then [] :: strSplit p cs
    else
      match strSplit p cs with
      | [] => [[c]]
      | t :: ts => (c :: t) :: ts

/-- The `tokenize` function of embedding.rs: split on whitespace and ASCII
punctuation, discard empty fragments, lowercase each token.  Rust performs
full Unicode lowercasing via `str::to_lowercase`; it is modelled here by a
per-character lowercase map, which no theorem below depends on. -/
def tokenize (text : List Char) : List (List Char) :=
  ((strSplit isSplitChar text).filter (fun s => !s.isEmpty)).map
    (fun s => s.map Char.toLower)

/-- The `EmbeddingModel` struct of embedding.rs. -/
structure EmbeddingModel where
  moduli : List Nat
deriving DecidableEq

/-- The constructor `EmbeddingModel::new`: takes the first `NUM_MODULI`
entries of the static table. -/
def EmbeddingModel.new : EmbeddingModel :=
  ⟨COPRIME_MODULI.take NUM_MODULI⟩

/-- The constructor `EmbeddingModel::load`: the model path argument is
ignored (no model file is needed) and `new` is called; in Rust the result
is wrapped in `Ok`, and no error is ever produced. -/
def EmbeddingModel.load (_model_path : String) : EmbeddingModel :=
  EmbeddingModel.new

/-- The private helper `EmbeddingModel::token_to_integer`: fold the first
`MAX_TOKEN_LENGTH` code points of the token into a `u64` by repeated
wrapping multiply-by-65536 and add; wrap-around is modelled by reducing
modulo 2^64 at each step. -/
def token_to_integer (token : List Char) : Nat :=
  (token.take MAX_TOKEN_LENGTH).foldl
    (fun n c => (n * 65536 + c.toNat) % 2 ^ 64) 0

/-- The private helper `EmbeddingModel::embed_token`: for each modulus m
compute the residue r of the token integer and push the pair
(sin θ, cos θ) with θ = 2π·r/m. -/
noncomputable def embed_token (m : EmbeddingModel) (token : List Char) :
    List ℝ :=
  let n := token_to_integer token
  (m.moduli.map (fun mm =>
    let r := n % mm
    let theta : ℝ := 2 * Real.pi * (r : ℝ) / (mm : ℝ)
    [Real.sin theta, Real.cos theta])).flatten

/-- The method `EmbeddingModel::embed` of embedding.rs, over exact reals:
tokenize, return the zero vector on an empty token list, otherwise sum the
token embeddings coordinate-wise, divide by the token count (mean
pooling), and divide by the Euclidean norm when it is positive.  In Rust
the result is wrapped in `Ok` and no error is ever produced, so the
`Result` wrapper is dropped here. -/
noncomputable def EmbeddingModel.embed (m : EmbeddingModel)
    (text : List Char) : List ℝ :=
  let tokens := tokenize text
  if tokens.isEmpty then List.replicate EMBEDDING_DIM (0 : ℝ)
  else
    let sum_embedding := tokens.foldl
      (fun acc tok => List.zipWith (· + ·) acc (embed_token m tok))
      (List.replicate EMBEDDING_DIM (0 : ℝ))
    let count := tokens.length
    let mean := if 0 < count then sum_embedding.map (fun v => v / (count : ℝ))
      else sum_embedding
    let norm := Real.sqrt ((mean.map (fun x => x * x)).foldl (· + ·) 0)
    if 0 < norm then mean.map (fun x => x / norm) else mean

/-- The method `EmbeddingModel::embed_batch`: one independent `embed` per
text. -/
noncomputable def EmbeddingModel.embed_batch (m : EmbeddingModel)
    (texts : List (List Char)) : List (List ℝ) :=
  texts.map (fun t => m.embed t)

/-- The Euclidean norm as computed inside `cosine_similarity` in
embedding.rs: square root of the sum of squares. -/
noncomputable def vecNorm (v : List ℝ) : ℝ :=
  Real.sqrt ((v.map (fun x => x * x)).foldl (· + ·) 0)

/-- The free function `cosine_similarity` of embedding.rs: 0 on mismatched
lengths; otherwise dot product over the product of norms when both norms
are positive, else 0. -/
noncomputable def cosine_similarity (a b : List ℝ) : ℝ :=
  if a.length ≠ b.length then 0
  else
    let dot := (List.zipWith (· * ·) a b).foldl (· + ·) 0
    let norm_a := vecNorm a
    let norm_b := vecNorm b
    if 0 < norm_a ∧ 0 < norm_b then dot / (norm_a * norm_b) else 0

/-! ## vectordb.rs -/

/-- The `NoteRecord` struct of vectordb.rs (note metadata stored alongside
embeddings).  `mtime` is the integer-seconds timestamp. -/
structure NoteRecord where
  id : String
  path : String
  title : String
  gist : Option String
  note_type : Option String
  status : Option String
  area : Option String
  tags : List String
  mtime : Int
deriving DecidableEq

/-- Abstraction of the external serde_json library, which is not part of
this repository: `toJson` models `serde_json::to_string` on a string list
and `fromJson` models `serde_json::from_str::<Vec<String>>`, returning
`none` exactly when the input is not valid JSON for a list of strings.
Every theorem below is parametric in this codec. -/
structure JsonCodec where
  toJson : List String → String
  fromJson : String → Option (List String)

/-- One row of the `notes` table (schema in `VectorDB::init_schema`):
`tags` is stored as a JSON-encoded TEXT column, `indexed_at` is the write
timestamp. -/
structure NotesRow where
  id : String
  path : String
  title : String
  gist : Option String
  note_type : Option String
  status : Option String
  area : Option String
  tags_json : String
  mtime : Int
  indexed_at : Int
deriving DecidableEq

/-- The persistent state behind a `VectorDB` connection: the three tables
created by `init_schema`, each as a list of rows in rowid order.  The
`embeddings` table stores the vector itself; the byte-blob encoding
applied by `embedding_to_blob` before storage is modelled separately (see
`embedding_to_blob` below) and is an exact inverse pair, so keeping the
vector is faithful. -/
structure DBState where
  notes : List NotesRow
  embeddings : List (String × List ℝ)
  index_meta : List (String × String)

/-- A freshly opened database after `init_schema`: three empty tables. -/
def DBState.empty : DBState := ⟨[], [], []⟩

/-- The `VectorDB::upsert_note` operation.  The first INSERT targets
`notes` with `ON CONFLICT(id) DO UPDATE`; a conflict on the `path UNIQUE`
constraint with a different id is not covered by that clause, so SQLite
raises an error and nothing is written.  Otherwise the row is updated in
place (same rowid) or appended, and the second INSERT upserts the
embedding under `note_id` likewise.  `now` models
`chrono::Utc::now().timestamp()`. -/
def upsert_note (codec : JsonCodec) (db : DBState) (note : NoteRecord)
    (embedding : List ℝ) (now : Int) : Except String DBState :=
  let tags_json := codec.toJson note.tags
  let row : NotesRow :=
    { id := note.id, path := note.path, title := note.title,
      gist := note.gist, note_type := note.note_type, status := note.status,
      area := note.area, tags_json := tags_json, mtime := note.mtime,
      indexed_at := now }
  if db.notes.any (fun r => r.id != note.id && r.path == note.path) then
    .error "UNIQUE constraint failed: notes.path"
  else
    let notes1 := if db.notes.any (fun r => r.id == note.id) then
        db.notes.map (fun r => if r.id == note.id then row else r)
      else db.notes ++ [row]
    let embeddings1 := if db.embeddings.any (fun e => e.1 == note.id) then
        db.embeddings.map (fun e => if e.1 == note.id then (note.id, embedding) else e)
      else db.embeddings ++ [(note.id, embedding)]
    .ok { db with notes := notes1, embeddings := embeddings1 }

/-- Modelled from the spec: the `VectorDB::delete_note` operation
executes `DELETE FROM notes WHERE id = ?1`, and whether the schema's
`ON DELETE CASCADE` on `embeddings.note_id` fires depends on the linked
SQLite build's default for foreign-key enforcement, which is fixed by the
repository's build configuration (Cargo.toml) — a file absent from the
staged sources (rusqlite's standard bundled SQLite is compiled with
foreign-key enforcement on by default).  The spec states that deletion of
the document cascades to its embedding, so the DELETE is modelled as
removing both the notes row and the embeddings row for `id`. -/
def delete_note (db : DBState) (id : String) : DBState :=
  { db with notes := db.notes.filter (fun r => r.id != id),
            embeddings := db.embeddings.filter (fun e => e.1 != id) }

/-- Reading one `notes` row back into a `NoteRecord` (the row-mapping
closure shared by `get_note` and `search`): a tags column that fails to
parse as a JSON string list is replaced by the empty list via
`unwrap_or_default`, not surfaced as an error. -/
def rowToRecord (codec : JsonCodec) (row : NotesRow) : NoteRecord :=
  { id := row.id, path := row.path, title := row.title, gist := row.gist,
    note_type := row.note_type, status := row.status, area := row.area,
    tags := (codec.fromJson row.tags_json).getD [], mtime := row.mtime }

/-- The `VectorDB::get_note` operation: point lookup by the primary key
`id`. -/
def get_note (codec : JsonCodec) (db : DBState) (id : String) :
    Option NoteRecord :=
  (db.notes.find? (fun r => r.id == id)).map (rowToRecord codec)

/-- The row set produced by the `FROM notes n JOIN embeddings e ON
n.id = e.note_id` scan inside `VectorDB::search`: each notes row paired
with its embedding, skipping notes without one. -/
def joinRows (codec : JsonCodec) (db : DBState) :
    List (NoteRecord × List ℝ) :=
  db.notes.filterMap (fun row =>
    (db.embeddings.find? (fun e => e.1 == row.id)).map
      (fun e => (rowToRecord codec row, e.2)))

/-- The comparator of `VectorDB::search`: the Rust sort is called with
the descending comparator on the score component (with incomparable
scores treated as equal; over ℝ the order is total), so element `a` may
precede `b` exactly when `b.2 ≤ a.2`. -/
def scoreGe (a b : NoteRecord × ℝ) : Prop := b.2 ≤ a.2

noncomputable instance : DecidableRel scoreGe :=
  fun a b => inferInstanceAs (Decidable (b.2 ≤ a.2))

instance : IsTotal (NoteRecord × ℝ) scoreGe := ⟨fun a b => le_total b.2 a.2⟩

instance : IsTrans (NoteRecord × ℝ) scoreGe :=
  ⟨fun _a _b _c h1 h2 => le_trans h2 h1⟩

/-- The `VectorDB::search` operation: exhaustive scan of the joined rows,
cosine similarity of each stored embedding against the query, stable sort
by descending score, truncation to `limit` entries.  Rust's stable
`sort_by` with this total comparator produces the same list as any stable
sort with the same comparator, here insertion sort. -/
noncomputable def VectorDB.search (codec : JsonCodec) (db : DBState)
    (query_embedding : List ℝ) (limit : Nat) : List (NoteRecord × ℝ) :=
  let results := (joinRows codec db).map
    (fun re => (re.1, cosine_similarity query_embedding re.2))
  (List.insertionSort scoreGe results).take limit

/-- Upsert into a key/value table, the list-level core of
`VectorDB::set_meta`: `INSERT INTO index_meta ... ON CONFLICT(key) DO
UPDATE`, i.e. replace in place if the key exists, else append. -/
def metaUpsert (l : List (String × String)) (key value : String) :
    List (String × String) :=
  if l.any (fun p => p.1 == key) then
    l.map (fun p => if p.1 == key then (key, value) else p)
  else l ++ [(key, value)]

/-- The `VectorDB::set_meta` operation. -/
def set_meta (db : DBState) (key value : String) : DBState :=
  { db with index_meta := metaUpsert db.index_meta key value }

/-- The `VectorDB::get_meta` operation: lookup by the primary key. -/
def get_meta (db : DBState) (key : String) : Option String :=
  (db.index_meta.find? (fun p => p.1 == key)).map (fun p => p.2)

/-- The store states reachable through the mutating `VectorDB`
operations, starting from a freshly initialised database: successful
upserts (a failed upsert leaves the state unchanged), deletes, and
metadata writes.  The read-only operations (`get_note`, `search`,
`get_meta`, statistics) do not change the state, and the engine mutates
the store only through `upsert_note` and `set_meta`. -/
inductive Reachable (codec : JsonCodec) : DBState → Prop
  | empty : Reachable codec DBState.empty
  | upsert_ok (db : DBState) (note : NoteRecord) (emb : List ℝ) (now : Int)
      (db1 : DBState) : Reachable codec db →
      upsert_note codec db note emb now = .ok db1 → Reachable codec db1
  | delete (db : DBState) (id : String) : Reachable codec db →
      Reachable codec (delete_note db id)
  | write_meta (db : DBState) (key value : String) : Reachable codec db →
      Reachable codec (set_meta db key value)

/-- The free function `embedding_to_blob` of vectordb.rs, on IEEE-754 bit
patterns: each `f32` component (represented by its 32-bit pattern, a
natural below 2^32) contributes its four little-endian bytes, exactly as
`f32::to_le_bytes`. -/
def embedding_to_blob (embedding : List Nat) : List Nat :=
  (embedding.map (fun v =>
    [v % 256, v / 256 % 256, v / 65536 % 256, v / 16777216 % 256])).flatten

/-- The free function `blob_to_embedding` of vectordb.rs:
`chunks_exact(4)` reads each complete group of four bytes little-endian
via `f32::from_le_bytes` and silently drops a trailing partial chunk. -/
def blob_to_embedding : List Nat → List Nat
  | b0 :: b1 :: b2 :: b3 :: rest =>
    (b0 + 256 * b1 + 65536 * b2 + 16777216 * b3) :: blob_to_embedding rest
  | _ => []

/-! ## engine.rs -/

/-- The projection of `core::note::Note` consumed by the search engine:
`name` (the file stem, used as id and title), the path rendered as a
string, the frontmatter accessors `gist() / note_type() / status() /
area() / tags()`, and `modified.timestamp()`.  The document-collection
layer that produces these values is outside the core (spec §1). -/
structure Note where
  name : String
  path : String
  gist : Option String
  note_type : Option String
  status : Option String
  area : Option String
  tags : List String
  mtime : Int
deriving DecidableEq

/-- The `IndexingStats` struct of engine.rs.  `duration_ms` is wall-clock
time, which is not modelled and is reported as 0 here. -/
structure IndexingStats where
  indexed : Nat
  skipped : Nat
  failed : Nat
  duration_ms : Nat
deriving DecidableEq

/-- The `SearchEngine` struct: the lazily constructed, memoized embedding
model, the database handle, and the model path handed to
`EmbeddingModel::load` (the vault path only feeds the external
document-collection layer and is omitted). -/
structure EngineState where
  model : Option EmbeddingModel
  db : DBState
  model_path : String

/-- The `SearchEngine::ensure_model` helper: construct and memoize the
model on first use.  `EmbeddingModel::load` never fails, so the Rust
`Result` wrapper is dropped. -/
def ensure_model (e : EngineState) : EmbeddingModel × EngineState :=
  match e.model with
  | some m => (m, e)
  | none =>
    let m := EmbeddingModel.load e.model_path
    (m, { e with model := some m })

/-- The `SearchEngine::index_note` operation: skip (returning `false`)
when the gist is missing or empty; otherwise embed the gist, build the
`NoteRecord` and upsert it.  The pair returned is (the Rust `Result`
value, the final engine state): on an upsert error the mutations already
applied to `self` — the memoized model — persist. -/
noncomputable def index_note (codec : JsonCodec) (e : EngineState)
    (note : Note) (now : Int) : Except String Bool × EngineState :=
  match note.gist with
  | some g =>
    if g ≠ "" then
      let me1 := ensure_model e
      let embedding := me1.1.embed g.data
      let record : NoteRecord :=
        { id := note.name, path := note.path, title := note.name,
          gist := some g, note_type := note.note_type, status := note.status,
          area := note.area, tags := note.tags, mtime := note.mtime }
      match upsert_note codec me1.2.db record embedding now with
      | .ok db1 => (.ok true, { me1.2 with db := db1 })
      | .error err => (.error err, me1.2)
    else (.ok false, e)
  | none => (.ok false, e)

/-- One iteration of the `for note in notes` loop of
`SearchEngine::index_all`, as a fold step over the accumulator
((indexed, skipped, failed), engine): `Ok(true)` increments `indexed`,
`Ok(false)` increments `skipped`, and `Err` is caught locally (only
logged) and increments `failed`; the loop always continues. -/
noncomputable def index_step (codec : JsonCodec) (now : Int)
    (acc : (Nat × Nat × Nat) × EngineState) (note : Note) :
    (Nat × Nat × Nat) × EngineState :=
  match index_note codec acc.2 note now with
  | (.ok true, e1) => ((acc.1.1 + 1, acc.1.2.1, acc.1.2.2), e1)
  | (.ok false, e1) => ((acc.1.1, acc.1.2.1 + 1, acc.1.2.2), e1)
  | (.error _, e1) => ((acc.1.1, acc.1.2.1, acc.1.2.2 + 1), e1)

/-- The `SearchEngine::index_all` operation.  The enumeration
`collect_all_notes` belongs to the external document-collection layer, so
the collection is a parameter.  After the loop the metadata entries
`indexed_count` and `last_full_index` are written; `now` models the
`chrono::Utc::now().timestamp()` taken at that point.  `set_meta` cannot
fail in the model, so the `Result` wrapper is dropped. -/
noncomputable def index_all (codec : JsonCodec) (e : EngineState)
    (notes : List Note) (now : Int) : IndexingStats × EngineState :=
  let r := notes.foldl (index_step codec now) ((0, 0, 0), e)
  let db1 := set_meta r.2.db "indexed_count" (toString r.1.1)
  let db2 := set_meta db1 "last_full_index" (toString now)
  (⟨r.1.1, r.1.2.1, r.1.2.2, 0⟩, { r.2 with db := db2 })

/-! ## Sample values for concrete evaluations -/

/-- A concrete serde_json stand-in whose decoder rejects every string;
used where a theorem needs an explicit codec. -/
def constCodec : JsonCodec := ⟨fun _ => "[]", fun _ => none⟩

/-- A concrete record with a gist. -/
def recA : NoteRecord := ⟨"a", "p", "t", some "g", none, none, none, [], 0⟩

/-- The notes row written when `recA` is upserted through `constCodec` at
time 0. -/
def rowA : NotesRow := ⟨"a", "p", "t", some "g", none, none, none, "[]", 0, 0⟩

/-- The store state after upserting `recA` (with the empty vector) into a
fresh store. -/
def dbA : DBState := ⟨[rowA], [("a", [])], []⟩

/-- A concrete record whose gist is missing. -/
def recNoGist : NoteRecord := ⟨"a", "p", "t", none, none, none, none, [], 0⟩

/-- A concrete document with no summary text. -/
def noteNoGist : Note := ⟨"a", "p", none, none, none, none, [], 0⟩

/-- A freshly constructed engine over an empty store. -/
def eng0 : EngineState := ⟨none, DBState.empty, ""⟩

/-- A concrete stored row whose tags column is not valid JSON. -/
def rowBadTags : NotesRow :=
  ⟨"a", "p", "t", some "g", none, none, none, "not json", 0, 0⟩

/-- A store holding `rowBadTags` together with an embedding for it. -/
def dbBadTags : DBState := ⟨[rowBadTags], [("a", [])], []⟩

/-! ## Theorems -/

/-- C2: for every input text, any two calls to `embed` — including calls
on two independently constructed `EmbeddingModel` instances, whether made
by `new` or by `load` from any model path — return identical vectors.
The Rust function is a pure computation over the constructed moduli table
(no randomness, no I/O, no global state), which the shallow embedding
renders as a function of the model value and the text alone; `load`
ignores its path and always yields the table built by `new`. -/
theorem embed_deterministic (p1 p2 : String) (text : List Char) :
    (EmbeddingModel.load p1).embed text = (EmbeddingModel.load p2).embed text ∧
    (EmbeddingModel.load p1).embed text = EmbeddingModel.new.embed text :=
  ⟨rfl, rfl⟩

/-- Auxiliary for C4: the byte-level round trip, by induction on the
vector. -/
theorem blob_roundtrip_aux :
    ∀ v : List Nat, (∀ x ∈ v, x < 2 ^ 32) →
      blob_to_embedding (embedding_to_blob v) = v := by
  intro v
  induction v with
  | nil => intro _; rfl
  | cons x xs ih =>
    intro h
    have hx : x < 2 ^ 32 := h x (List.mem_cons_self x xs)
    have h2 := ih (fun y hy => h y (List.mem_cons_of_mem x hy))
    have hblob : embedding_to_blob (x :: xs) =
        x % 256 :: x / 256 % 256 :: x / 65536 % 256 :: x / 16777216 % 256 ::
          embedding_to_blob xs := by
      simp [embedding_to_blob]
    rw [hblob, blob_to_embedding, h2]
    congr 1
    omega

/-- Auxiliary for C4: the blob of a vector is exactly four bytes per
component. -/
theorem blob_length :
    ∀ v : List Nat, (embedding_to_blob v).length = 4 * v.length := by
  intro v
  induction v with
  | nil => rfl
  | cons x xs ih =>
    have hblob : embedding_to_blob (x :: xs) =
        x % 256 :: x / 256 % 256 :: x / 65536 % 256 :: x / 16777216 % 256 ::
          embedding_to_blob xs := by
      simp [embedding_to_blob]
    rw [hblob]
    simp only [List.length_cons, ih]
    omega

/-- C4: deserialising the serialisation of any vector of valid `f32` bit
patterns reproduces it exactly, and the serialisation is four bytes per
component.  `f32` values are represented by their IEEE-754 bit patterns;
`f32::to_le_bytes` / `from_le_bytes` move exactly those bits, so the
bit-level round trip (which holds for all patterns, in particular all
finite values) is value-exact on finite floats. -/
theorem blob_roundtrip (v : List Nat) (h : ∀ x ∈ v, x < 2 ^ 32) :
    blob_to_embedding (embedding_to_blob v) = v ∧
    (embedding_to_blob v).length = 4 * v.length :=
  ⟨blob_roundtrip_aux v h, blob_length v⟩

/-- Witness for C4 at the concrete vector [0, 1, 4294967295]. -/
theorem blob_roundtrip_witness :
    (∀ x ∈ [0, 1, 4294967295], x < 2 ^ 32) ∧
    (blob_to_embedding (embedding_to_blob [0, 1, 4294967295]) =
        [0, 1, 4294967295] ∧
      (embedding_to_blob [0, 1, 4294967295]).length =
        4 * ([0, 1, 4294967295] : List Nat).length) :=
  ⟨by decide, blob_roundtrip [0, 1, 4294967295] (by decide)⟩

/-- C9: `cosine_similarity` returns 0 whenever the two vectors have
different lengths, and whenever either vector has zero Euclidean norm; in
Rust both cases take an early-exit branch of a total function, so no
error is ever raised. -/
theorem cosine_similarity_zero_cases (a b : List ℝ)
    (h : a.length ≠ b.length ∨ vecNorm a = 0 ∨ vecNorm b = 0) :
    cosine_similarity a b = 0 := by
  unfold cosine_similarity
  by_cases hl : a.length ≠ b.length
  · rw [if_pos hl]
  · rw [if_neg hl]
    rcases h with h | h | h
    · exact absurd h hl
    · have hc : ¬(0 < vecNorm a ∧ 0 < vecNorm b) := by
        rintro ⟨h1, _⟩
        rw [h] at h1
        exact lt_irrefl 0 h1
      simp only [if_neg hc]
    · have hc : ¬(0 < vecNorm a ∧ 0 < vecNorm b) := by
        rintro ⟨_, h2⟩
        rw [h] at h2
        exact lt_irrefl 0 h2
      simp only [if_neg hc]

/-- Witness for C9 at vectors of mismatched lengths. -/
theorem cosine_similarity_zero_cases_witness :
    (([(1 : ℝ)].length ≠ ([1, 2] : List ℝ).length ∨
        vecNorm [(1 : ℝ)] = 0 ∨ vecNorm ([1, 2] : List ℝ) = 0) ∧
      cosine_similarity [(1 : ℝ)] [1, 2] = 0) :=
  ⟨Or.inl (by decide),
   cosine_similarity_zero_cases [(1 : ℝ)] [1, 2] (Or.inl (by decide))⟩

/-- Auxiliary for C8: splitting a text all of whose characters are
separators yields only empty fragments (one more than the number of
characters). -/
theorem strSplit_all_sep (p : Char → Bool) :
    ∀ cs : List Char, (∀ c ∈ cs, p c = true) →
      strSplit p cs = List.replicate (cs.length + 1) [] := by
  intro cs
  induction cs with
  | nil => intro _; rfl
  | cons c cs ih =>
    intro h
    have hc : p c = true := h c (List.mem_cons_self c cs)
    rw [strSplit, if_pos hc, ih (fun d hd => h d (List.mem_cons_of_mem c hd))]
    simp [List.replicate_succ]

/-- Auxiliary for C8: discarding the empty fragments of an all-empty
fragment list leaves nothing. -/
theorem filter_replicate_nil_empty :
    ∀ n : Nat,
      (List.replicate n ([] : List Char)).filter (fun s => !s.isEmpty) = [] := by
  intro n
  induction n with
  | zero => rfl
  | succ n ih => simp [List.replicate_succ, ih]

/-- Auxiliary for C8: a text consisting only of separator characters
tokenizes to the empty token list. -/
theorem tokenize_all_sep (cs : List Char)
    (h : ∀ c ∈ cs, isSplitChar c = true) : tokenize cs = [] := by
  unfold tokenize
  rw [strSplit_all_sep isSplitChar cs h, filter_replicate_nil_empty]
  rfl

/-- C8: on input consisting only of whitespace and/or ASCII punctuation
characters (in particular on the empty string), `embed` returns the
all-zero vector of length `EMBEDDING_DIM` = 384: tokenization splits on
exactly these characters and discards the resulting empty fragments, so
the token list is empty and the zero-vector branch is taken. -/
theorem embed_sep_only_zero (text : List Char)
    (h : ∀ c ∈ text, isRustWhitespace c = true ∨ isAsciiPunct c = true) :
    EmbeddingModel.new.embed text = List.replicate EMBEDDING_DIM (0 : ℝ) := by
  have htok : tokenize text = [] := by
    refine tokenize_all_sep text (fun c hc => ?_)
    rcases h c hc with h1 | h1 <;> simp [isSplitChar, h1]
  unfold EmbeddingModel.embed
  rw [htok]
  rfl

/-- Witness for C8 at the concrete text consisting of a space, a comma
and a period. -/
theorem embed_sep_only_zero_witness :
    (∀ c ∈ [' ', ',', '.'], isRustWhitespace c = true ∨ isAsciiPunct c = true) ∧
    EmbeddingModel.new.embed [' ', ',', '.'] =
      List.replicate EMBEDDING_DIM (0 : ℝ) :=
  ⟨by decide, embed_sep_only_zero [' ', ',', '.'] (by decide)⟩

/-- C5: for every store state, query vector and limit k, `search` returns
at most min(k, n) results — n being the number of store entries, i.e. of
notes rows joined with their embedding — and the returned list is sorted
by non-increasing similarity score (`scoreGe` relates each element to
every later one). -/
theorem search_sorted_truncated (codec : JsonCodec) (db : DBState)
    (q : List ℝ) (k : Nat) :
    (VectorDB.search codec db q k).length ≤
      min k (joinRows codec db).length ∧
    List.Sorted scoreGe (VectorDB.search codec db q k) := by
  constructor
  · show ((List.insertionSort scoreGe ((joinRows codec db).map
        (fun re => (re.1, cosine_similarity q re.2)))).take k).length ≤
      min k (joinRows codec db).length
    rw [List.length_take, (List.perm_insertionSort scoreGe _).length_eq,
      List.length_map]
  · show List.Sorted scoreGe ((List.insertionSort scoreGe
      ((joinRows codec db).map
        (fun re => (re.1, cosine_similarity q re.2)))).take k)
    exact List.Pairwise.sublist (List.take_sublist _ _)
      (List.sorted_insertionSort scoreGe _)

/-- Auxiliary: replacing the entry for `key` makes `find?` on `key`
return the new pair, whenever an entry for `key` exists. -/
theorem find?_map_replace_self (key value : String) :
    ∀ l : List (String × String), l.any (fun p => p.1 == key) = true →
      (l.map (fun p => if p.1 == key then (key, value) else p)).find?
        (fun p => p.1 == key) = some (key, value) := by
  intro l
  induction l with
  | nil => intro h; simp at h
  | cons p l ih =>
    intro h
    by_cases hp : p.1 == key
    · simp [List.find?, hp]
    · have hl : l.any (fun p2 => p2.1 == key) = true := by
        simp [List.any_cons, hp] at h
        simpa using h
      simp only [List.map_cons, if_neg hp, List.find?]
      rw [Bool.eq_false_iff.mpr hp]
      exact ih hl

/-- Auxiliary: appending a fresh entry for `key` makes `find?` on `key`
return it, whenever no entry for `key` exists. -/
theorem find?_append_fresh_self (key value : String) :
    ∀ l : List (String × String), l.any (fun p => p.1 == key) = false →
      (l ++ [(key, value)]).find? (fun p => p.1 == key) =
        some (key, value) := by
  intro l
  induction l with
  | nil => simp [List.find?]
  | cons p l ih =>
    intro h
    simp only [List.any_cons, Bool.or_eq_false_iff] at h
    simp only [List.cons_append, List.find?, h.1]
    exact ih h.2

/-- Auxiliary: after `metaUpsert l key value`, looking up `key` finds the
new value. -/
theorem find?_metaUpsert_self (l : List (String × String))
    (key value : String) :
    (metaUpsert l key value).find? (fun p => p.1 == key) =
      some (key, value) := by
  unfold metaUpsert
  by_cases h : l.any (fun p => p.1 == key) = true
  · rw [if_pos h]
    exact find?_map_replace_self key value l h
  · rw [if_neg h]
    exact find?_append_fresh_self key value l (Bool.eq_false_iff.mpr h)

/-- Auxiliary: `metaUpsert` on one key does not change what `find?` sees
for a different key. -/
theorem find?_metaUpsert_other (l : List (String × String))
    (key value key2 : String) (hne : key2 ≠ key) :
    (metaUpsert l key value).find? (fun p => p.1 == key2) =
      l.find? (fun p => p.1 == key2) := by
  unfold metaUpsert
  by_cases h : l.any (fun p => p.1 == key) = true
  · rw [if_pos h]
    clear h
    induction l with
    | nil => rfl
    | cons p l ih =>
      rw [List.map_cons]
      by_cases hp : (p.1 == key) = true
      · have hpk : p.1 = key := by simpa using hp
        rw [if_pos hp,
          List.find?_cons_of_neg (p := fun r : String × String => r.1 == key2) _
            (by simp [Ne.symm hne]),
          List.find?_cons_of_neg (p := fun r : String × String => r.1 == key2) _
            (by simp [hpk, Ne.symm hne])]
        exact ih
      · rw [if_neg hp]
        by_cases hq : (p.1 == key2) = true
        · rw [List.find?_cons_of_pos (p := fun r : String × String => r.1 == key2) _ hq,
            List.find?_cons_of_pos (p := fun r : String × String => r.1 == key2) _ hq]
        · rw [List.find?_cons_of_neg (p := fun r : String × String => r.1 == key2) _ hq,
            List.find?_cons_of_neg (p := fun r : String × String => r.1 == key2) _ hq]
          exact ih
  · rw [if_neg h]
    clear h
    induction l with
    | nil =>
      rw [List.nil_append,
        List.find?_cons_of_neg (p := fun r : String × String => r.1 == key2) _
          (by simp [Ne.symm hne])]
    | cons p l ih =>
      rw [List.cons_append]
      by_cases hq : (p.1 == key2) = true
      · rw [List.find?_cons_of_pos (p := fun r : String × String => r.1 == key2) _ hq,
          List.find?_cons_of_pos (p := fun r : String × String => r.1 == key2) _ hq]
      · rw [List.find?_cons_of_neg (p := fun r : String × String => r.1 == key2) _ hq,
          List.find?_cons_of_neg (p := fun r : String × String => r.1 == key2) _ hq]
        exact ih

/-- Auxiliary: `get_meta` after `set_meta` on the same key returns the
value just written. -/
theorem get_meta_set_meta_self (db : DBState) (key value : String) :
    get_meta (set_meta db key value) key = some value := by
  unfold get_meta set_meta
  rw [find?_metaUpsert_self]
  rfl

/-- Auxiliary: `get_meta` after `set_meta` on a different key is
unchanged. -/
theorem get_meta_set_meta_other (db : DBState) (key value key2 : String)
    (hne : key2 ≠ key) :
    get_meta (set_meta db key value) key2 = get_meta db key2 := by
  unfold get_meta set_meta
  rw [find?_metaUpsert_other db.index_meta key value key2 hne]

/-- Auxiliary: `ensure_model` never touches the database. -/
theorem ensure_model_db (e : EngineState) : (ensure_model e).2.db = e.db := by
  unfold ensure_model
  cases e.model <;> rfl

/-- Auxiliary: one loop iteration accounts for exactly one document in
exactly one of the three counters. -/
theorem index_step_sum (codec : JsonCodec) (now : Int)
    (acc : (Nat × Nat × Nat) × EngineState) (note : Note) :
    (index_step codec now acc note).1.1 +
      (index_step codec now acc note).1.2.1 +
      (index_step codec now acc note).1.2.2 =
    acc.1.1 + acc.1.2.1 + acc.1.2.2 + 1 := by
  unfold index_step
  rcases h : index_note codec acc.2 note now with ⟨res, e1⟩
  cases res with
  | ok b => cases b <;> simp <;> omega
  | error err => simp; omega

/-- Auxiliary: the loop state after one iteration is the engine state
returned by `index_note`, in every branch. -/
theorem index_step_engine (codec : JsonCodec) (now : Int)
    (acc : (Nat × Nat × Nat) × EngineState) (note : Note) :
    (index_step codec now acc note).2 =
      (index_note codec acc.2 note now).2 := by
  unfold index_step
  rcases h : index_note codec acc.2 note now with ⟨res, e1⟩
  cases res with
  | ok b => cases b <;> simp
  | error err => simp

/-- Auxiliary: over the whole loop, the three counters sum to the number
of enumerated documents. -/
theorem foldl_index_step_sum (codec : JsonCodec) (now : Int) :
    ∀ (notes : List Note) (acc : (Nat × Nat × Nat) × EngineState),
      (notes.foldl (index_step codec now) acc).1.1 +
        (notes.foldl (index_step codec now) acc).1.2.1 +
        (notes.foldl (index_step codec now) acc).1.2.2 =
      acc.1.1 + acc.1.2.1 + acc.1.2.2 + notes.length := by
  intro notes
  induction notes with
  | nil => intro acc; simp
  | cons note notes ih =>
    intro acc
    rw [List.foldl_cons, ih]
    have h := index_step_sum codec now acc note
    rw [List.length_cons]
    omega

/-- C7: a failure while indexing one document never aborts `index_all`:
every enumerated document is accounted for in exactly one of the three
counters (so indexed + skipped + failed equals the number of documents,
and a per-document error is folded into `failed` rather than propagated),
and on completion the store metadata records the indexed count under
`indexed_count` and the completion timestamp under `last_full_index`. -/
theorem index_all_robust (codec : JsonCodec) (e : EngineState)
    (notes : List Note) (now : Int) :
    (index_all codec e notes now).1.indexed +
        (index_all codec e notes now).1.skipped +
        (index_all codec e notes now).1.failed = notes.length ∧
    get_meta (index_all codec e notes now).2.db "indexed_count" =
      some (toString (index_all codec e notes now).1.indexed) ∧
    get_meta (index_all codec e notes now).2.db "last_full_index" =
      some (toString now) := by
  refine ⟨?_, ?_, ?_⟩
  · show (notes.foldl (index_step codec now) ((0, 0, 0), e)).1.1 +
        (notes.foldl (index_step codec now) ((0, 0, 0), e)).1.2.1 +
        (notes.foldl (index_step codec now) ((0, 0, 0), e)).1.2.2 =
      notes.length
    rw [foldl_index_step_sum codec now notes ((0, 0, 0), e)]
    simp
  · show get_meta (set_meta (set_meta
        (notes.foldl (index_step codec now) ((0, 0, 0), e)).2.db
        "indexed_count"
        (toString (notes.foldl (index_step codec now) ((0, 0, 0), e)).1.1))
        "last_full_index" (toString now)) "indexed_count" =
      some (toString (notes.foldl (index_step codec now) ((0, 0, 0), e)).1.1)
    rw [get_meta_set_meta_other _ _ _ _ (by decide), get_meta_set_meta_self]
  · show get_meta (set_meta (set_meta
        (notes.foldl (index_step codec now) ((0, 0, 0), e)).2.db
        "indexed_count"
        (toString (notes.foldl (index_step codec now) ((0, 0, 0), e)).1.1))
        "last_full_index" (toString now)) "last_full_index" =
      some (toString now)
    rw [get_meta_set_meta_self]

/-- Auxiliary for C6: `index_note` on a document with a missing or empty
gist reports "skipped" and leaves the engine — in particular the store —
untouched. -/
theorem index_note_skip (codec : JsonCodec) (e : EngineState) (note : Note)
    (now : Int) (h : note.gist = none ∨ note.gist = some "") :
    index_note codec e note now = (.ok false, e) := by
  rcases h with h | h <;> simp [index_note, h]

/-- Auxiliary for C6: `index_note` on a document with a non-empty gist
never reports "skipped" (it reports indexed, or fails). -/
theorem index_note_no_skip (codec : JsonCodec) (e : EngineState)
    (note : Note) (now : Int)
    (h : ¬(note.gist = none ∨ note.gist = some "")) :
    (index_note codec e note now).1 ≠ .ok false := by
  push_neg at h
  cases hg : note.gist with
  | none => exact absurd hg h.1
  | some g =>
    have hg2 : g ≠ "" := by
      intro he
      exact h.2 (by rw [hg, he])
    simp only [index_note, hg, if_pos hg2]
    cases hu : upsert_note codec (ensure_model e).2.db
        { id := note.name, path := note.path, title := note.name,
          gist := some g, note_type := note.note_type, status := note.status,
          area := note.area, tags := note.tags, mtime := note.mtime }
        ((ensure_model e).1.embed g.data) now with
    | ok db1 => simp
    | error err => simp

/-- Auxiliary for C6: every row present after `upsert_note` succeeds was
already present or carries the gist of the upserted record. -/
theorem upsert_note_rows (codec : JsonCodec) (db : DBState)
    (note : NoteRecord) (emb : List ℝ) (now : Int) (db1 : DBState)
    (h : upsert_note codec db note emb now = .ok db1) :
    ∀ row ∈ db1.notes, row ∈ db.notes ∨ row.gist = note.gist := by
  simp only [upsert_note] at h
  split at h
  · exact absurd h (by simp)
  · injection h with h2
    subst h2
    intro row hrow
    simp only at hrow
    split at hrow
    · obtain ⟨r, hr, hfr⟩ := List.mem_map.mp hrow
      by_cases hid : (r.id == note.id) = true
      · rw [if_pos hid] at hfr
        right
        rw [← hfr]
      · rw [if_neg hid] at hfr
        left
        rw [← hfr]
        exact hr
    · rcases List.mem_append.mp hrow with hl | hr
      · exact Or.inl hl
      · right
        rw [List.mem_singleton.mp hr]

/-- Auxiliary for C6: every row present after `index_note` was already
present or has a non-empty gist. -/
theorem index_note_rows (codec : JsonCodec) (e : EngineState) (note : Note)
    (now : Int) :
    ∀ row ∈ (index_note codec e note now).2.db.notes,
      row ∈ e.db.notes ∨ ∃ g, row.gist = some g ∧ g ≠ "" := by
  intro row hrow
  cases hg : note.gist with
  | none =>
    simp only [index_note, hg] at hrow
    exact Or.inl hrow
  | some g =>
    by_cases hg2 : g ≠ ""
    · simp only [index_note, hg, if_pos hg2] at hrow
      cases hu : upsert_note codec (ensure_model e).2.db
          { id := note.name, path := note.path, title := note.name,
            gist := some g, note_type := note.note_type,
            status := note.status, area := note.area, tags := note.tags,
            mtime := note.mtime }
          ((ensure_model e).1.embed g.data) now with
      | ok db1 =>
        rw [hu] at hrow
        simp only at hrow
        rcases upsert_note_rows codec (ensure_model e).2.db _ _ now db1 hu
            row hrow with hl | hr
        · rw [ensure_model_db] at hl
          exact Or.inl hl
        · exact Or.inr ⟨g, hr, hg2⟩
      | error err =>
        rw [hu] at hrow
        simp only [ensure_model_db] at hrow
        exact Or.inl hrow
    · simp only [index_note, hg, if_neg hg2] at hrow
      exact Or.inl hrow

/-- Auxiliary for C6: the indexing loop never introduces a row with a
missing or empty gist. -/
theorem foldl_index_step_rows (codec : JsonCodec) (now : Int) :
    ∀ (notes : List Note) (acc : (Nat × Nat × Nat) × EngineState),
      (∀ row ∈ acc.2.db.notes, row.gist ≠ none ∧ row.gist ≠ some "") →
      ∀ row ∈ (notes.foldl (index_step codec now) acc).2.db.notes,
        row.gist ≠ none ∧ row.gist ≠ some "" := by
  intro notes
  induction notes with
  | nil => intro acc h; exact h
  | cons note notes ih =>
    intro acc h
    rw [List.foldl_cons]
    refine ih (index_step codec now acc note) ?_
    intro row hrow
    rw [index_step_engine] at hrow
    rcases index_note_rows codec acc.2 note now row hrow with hl | ⟨g, hg, hg2⟩
    · exact h row hl
    · constructor
      · rw [hg]; simp
      · rw [hg]
        intro hc
        injection hc with hc2
        exact hg2 hc2

/-- Auxiliary for C6: the skipped counter counts exactly the documents
with a missing or empty gist. -/
theorem foldl_index_step_skipped (codec : JsonCodec) (now : Int) :
    ∀ (notes : List Note) (acc : (Nat × Nat × Nat) × EngineState),
      (notes.foldl (index_step codec now) acc).1.2.1 =
        acc.1.2.1 +
          notes.countP (fun n2 => n2.gist == none || n2.gist == some "") := by
  intro notes
  induction notes with
  | nil => intro acc; simp
  | cons note notes ih =>
    intro acc
    rw [List.foldl_cons, ih, List.countP_cons]
    by_cases hskip : note.gist = none ∨ note.gist = some ""
    · have hstep : index_step codec now acc note =
          ((acc.1.1, acc.1.2.1 + 1, acc.1.2.2), acc.2) := by
        unfold index_step
        rw [index_note_skip codec acc.2 note now hskip]
      rw [hstep]
      have hb : (note.gist == none || note.gist == some "") = true := by
        rcases hskip with h | h <;> simp [h]
      rw [hb]
      simp only [if_true]
      omega
    · have hb : (note.gist == none || note.gist == some "") = false := by
        push_neg at hskip
        simp [hskip.1, hskip.2]
      have hns := index_note_no_skip codec acc.2 note now hskip
      have hstep : (index_step codec now acc note).1.2.1 = acc.1.2.1 ∧
          (index_step codec now acc note).2 =
            (index_note codec acc.2 note now).2 := by
        unfold index_step
        rcases hr : index_note codec acc.2 note now with ⟨res, e1⟩
        cases res with
        | ok b =>
          cases b with
          | true => simp
          | false => exact absurd (by rw [hr]) hns
        | error err => simp
      rw [hb, hstep.1]
      simp

/-- C6 (amended): `index_note` on a document with a missing or empty gist
returns the skipped outcome and writes nothing; `index_all` never writes
a record with a missing or empty gist, so if the store held no such
record beforehand (in particular if it was empty) it holds none
afterwards; and the skipped counter counts exactly the documents with a
missing or empty gist.  (A pre-existing store entry under such a
document's identifier is left in place, not removed — see the
counterexample to the unamended claim.) -/
theorem index_skip_rule (codec : JsonCodec) (e : EngineState)
    (notes : List Note) (now now2 : Int) (note : Note)
    (hgist : note.gist = none ∨ note.gist = some "")
    (hpre : ∀ row ∈ e.db.notes, row.gist ≠ none ∧ row.gist ≠ some "") :
    index_note codec e note now2 = (.ok false, e) ∧
    (∀ row ∈ (index_all codec e notes now).2.db.notes,
        row.gist ≠ none ∧ row.gist ≠ some "") ∧
    (index_all codec e notes now).1.skipped =
      notes.countP (fun n2 => n2.gist == none || n2.gist == some "") := by
  refine ⟨index_note_skip codec e note now2 hgist, ?_, ?_⟩
  · intro row hrow
    have hdb : (index_all codec e notes now).2.db.notes =
        (notes.foldl (index_step codec now) ((0, 0, 0), e)).2.db.notes := rfl
    rw [hdb] at hrow
    exact foldl_index_step_rows codec now notes ((0, 0, 0), e) hpre row hrow
  · show (notes.foldl (index_step codec now) ((0, 0, 0), e)).1.2.1 =
      notes.countP (fun n2 => n2.gist == none || n2.gist == some "")
    rw [foldl_index_step_skipped codec now notes ((0, 0, 0), e)]
    simp

/-- Witness for C6 at a concrete no-gist document indexed into an empty
store. -/
theorem index_skip_rule_witness :
    ((noteNoGist.gist = none ∨ noteNoGist.gist = some "") ∧
      (∀ row ∈ eng0.db.notes, row.gist ≠ none ∧ row.gist ≠ some "")) ∧
    (index_note constCodec eng0 noteNoGist 0 = (.ok false, eng0) ∧
      (∀ row ∈ (index_all constCodec eng0 [noteNoGist] 0).2.db.notes,
          row.gist ≠ none ∧ row.gist ≠ some "") ∧
      (index_all constCodec eng0 [noteNoGist] 0).1.skipped =
        [noteNoGist].countP
          (fun n2 => n2.gist == none || n2.gist == some "")) :=
  ⟨⟨Or.inl rfl, by intro row hrow; simp [eng0, DBState.empty] at hrow⟩,
   index_skip_rule constCodec eng0 [noteNoGist] 0 0 noteNoGist (Or.inl rfl)
     (by intro row hrow; simp [eng0, DBState.empty] at hrow)⟩

/-- C6 (counterexample to the unamended claim): starting from a store that
already holds an entry under identifier `a` whose gist is missing
(inserted through the public `upsert_note` store operation), running
`index_all` over a collection containing the summary-less document `a`
skips it (skipped = 1) but leaves the stale entry in place: `get_note`
still returns a record for `a`, with a missing gist — so a document with
missing summary text is present in the store after `index_all`. -/
theorem index_all_stale_no_gist_present :
    Except.map (fun db =>
        (((get_note constCodec
              (index_all constCodec ⟨none, db, ""⟩ [noteNoGist] 0).2.db
              "a").map (fun nr => nr.gist)),
         (index_all constCodec ⟨none, db, ""⟩ [noteNoGist] 0).1.skipped))
      (upsert_note constCodec DBState.empty recNoGist [] 0) =
    .ok (some none, 1) := rfl

/-- C10: when a stored row's tags column fails to parse as a JSON string
list, neither `get_note` nor `search` fails: `get_note` returns the
record with the empty tag list substituted for the unparsable column, and
every `search` result is the faithful image of some stored row under the
same row mapping, which substitutes the empty tag list whenever that
row's tags column is unparsable.  (Both Rust functions are total here:
the serde failure is absorbed by `unwrap_or_default`.) -/
theorem tags_parse_fallback (codec : JsonCodec) (db : DBState)
    (id : String) (row : NotesRow) (q : List ℝ) (k : Nat)
    (p : NoteRecord × ℝ)
    (hfind : db.notes.find? (fun r => r.id == id) = some row)
    (hbad : codec.fromJson row.tags_json = none)
    (hp : p ∈ VectorDB.search codec db q k) :
    get_note codec db id = some (rowToRecord codec row) ∧
    (rowToRecord codec row).tags = [] ∧
    ∃ row2 ∈ db.notes, p.1 = rowToRecord codec row2 ∧
      (codec.fromJson row2.tags_json = none → p.1.tags = []) := by
  refine ⟨?_, ?_, ?_⟩
  · simp [get_note, hfind]
  · simp [rowToRecord, hbad]
  · have hp2 : p ∈ (List.insertionSort scoreGe ((joinRows codec db).map
        (fun re => (re.1, cosine_similarity q re.2)))).take k := hp
    have h1 := List.mem_of_mem_take hp2
    have h2 := ((List.perm_insertionSort scoreGe _).mem_iff).mp h1
    obtain ⟨re, hre, hpe⟩ := List.mem_map.mp h2
    obtain ⟨row2, hrow2, hfe⟩ := List.mem_filterMap.mp hre
    obtain ⟨e2, he2, heq⟩ := Option.map_eq_some'.mp hfe
    refine ⟨row2, hrow2, ?_, ?_⟩
    · rw [← hpe, ← heq]
    · intro hb2
      rw [← hpe, ← heq]
      simp [rowToRecord, hb2]

/-- Witness for C10 at a concrete store whose only row has an unparsable
tags column. -/
theorem tags_parse_fallback_witness :
    ((dbBadTags.notes.find? (fun r => r.id == "a") = some rowBadTags ∧
       constCodec.fromJson rowBadTags.tags_json = none ∧
       (rowToRecord constCodec rowBadTags, cosine_similarity [] []) ∈
         VectorDB.search constCodec dbBadTags [] 1) ∧
     (get_note constCodec dbBadTags "a" =
         some (rowToRecord constCodec rowBadTags) ∧
       (rowToRecord constCodec rowBadTags).tags = [] ∧
       ∃ row2 ∈ dbBadTags.notes,
         (rowToRecord constCodec rowBadTags, cosine_similarity [] []).1 =
           rowToRecord constCodec row2 ∧
         (constCodec.fromJson row2.tags_json = none →
           (rowToRecord constCodec rowBadTags,
             cosine_similarity [] []).1.tags = []))) := by
  have hp : (rowToRecord constCodec rowBadTags, cosine_similarity [] []) ∈
      VectorDB.search constCodec dbBadTags [] 1 :=
    List.mem_singleton.mpr rfl
  exact ⟨⟨rfl, rfl, hp⟩,
    tags_parse_fallback constCodec dbBadTags "a" rowBadTags [] 1 _ rfl rfl hp⟩

/-- Auxiliary for C1: replacing the (unique-keyed) entry for the key of
`x` in place does not change which keys have an entry. -/
theorem exists_key_map_replace {α : Type} (key : α → String) (x : α)
    (k : String) (hxk : key x = k) (l : List α) (id : String) :
    (∃ r ∈ l.map (fun r => if key r == k then x else r), key r = id) ↔
      (∃ r ∈ l, key r = id) := by
  constructor
  · rintro ⟨r, hr, hid⟩
    obtain ⟨r0, hr0, hfr⟩ := List.mem_map.mp hr
    by_cases h0 : (key r0 == k) = true
    · rw [if_pos h0] at hfr
      refine ⟨r0, hr0, ?_⟩
      have hk0 : key r0 = k := by simpa using h0
      rw [hk0, ← hxk, hfr]
      exact hid
    · rw [if_neg h0] at hfr
      exact ⟨r0, hr0, by rw [hfr]; exact hid⟩
  · rintro ⟨r, hr, hid⟩
    by_cases h0 : (key r == k) = true
    · refine ⟨x, List.mem_map.mpr ⟨r, hr, by rw [if_pos h0]⟩, ?_⟩
      have hk0 : key r = k := by simpa using h0
      rw [hxk, ← hk0]
      exact hid
    · exact ⟨r, List.mem_map.mpr ⟨r, hr, by rw [if_neg h0]⟩, hid⟩

/-- Auxiliary for C1: appending an entry for the key of `x` adds exactly
that key. -/
theorem exists_key_append {α : Type} (key : α → String) (x : α)
    (k : String) (hxk : key x = k) (l : List α) (id : String) :
    (∃ r ∈ l ++ [x], key r = id) ↔ ((∃ r ∈ l, key r = id) ∨ k = id) := by
  constructor
  · rintro ⟨r, hr, hid⟩
    rcases List.mem_append.mp hr with h1 | h1
    · exact Or.inl ⟨r, h1, hid⟩
    · right
      rw [← hxk, ← List.mem_singleton.mp h1]
      exact hid
  · rintro (⟨r, hr, hid⟩ | hid)
    · exact ⟨r, List.mem_append.mpr (Or.inl hr), hid⟩
    · refine ⟨x, List.mem_append.mpr (Or.inr (List.mem_singleton.mpr rfl)), ?_⟩
      rw [hxk]
      exact hid

/-- Auxiliary for C1: after a cascading delete of `id0`, neither table
has an entry for `id0`. -/
theorem delete_note_removes (db : DBState) (id0 : String) :
    (¬∃ row ∈ (delete_note db id0).notes, row.id = id0) ∧
    (¬∃ e ∈ (delete_note db id0).embeddings, e.1 = id0) := by
  constructor
  · rintro ⟨row, hrow, hid⟩
    have h2 := (List.mem_filter.mp hrow).2
    rw [hid] at h2
    simp at h2
  · rintro ⟨e, he, hid⟩
    have h2 := (List.mem_filter.mp he).2
    rw [hid] at h2
    simp at h2

/-- Auxiliary for C1: a cascading delete removes a key from both tables
and keeps every other key in a table exactly when it was there before. -/
theorem exists_key_filter_ne {α : Type} (key : α → String) (id0 : String)
    (l : List α) (id : String) (hne : id ≠ id0) :
    (∃ r ∈ l.filter (fun r => key r != id0), key r = id) ↔
      (∃ r ∈ l, key r = id) := by
  constructor
  · rintro ⟨r, hr, hid⟩
    exact ⟨r, (List.mem_filter.mp hr).1, hid⟩
  · rintro ⟨r, hr, hid⟩
    refine ⟨r, List.mem_filter.mpr ⟨hr, ?_⟩, hid⟩
    rw [hid]
    simpa using hne

/-- Auxiliary for C1: on every reachable store state an identifier has a
notes row exactly when it has an embeddings row. -/
theorem reachable_notes_iff_embeddings (codec : JsonCodec) (db : DBState)
    (h : Reachable codec db) :
    ∀ id, (∃ row ∈ db.notes, row.id = id) ↔
      (∃ e ∈ db.embeddings, e.1 = id) := by
  induction h with
  | empty => intro id; simp [DBState.empty]
  | upsert_ok db note emb now db1 hr heq ih =>
    intro id
    simp only [upsert_note] at heq
    split at heq
    · exact absurd heq (by simp)
    · injection heq with h2
      subst h2
      have hAB : (db.notes.any (fun r => r.id == note.id)) =
          (db.embeddings.any (fun e => e.1 == note.id)) := by
        by_cases hA : db.notes.any (fun r => r.id == note.id) = true
        · obtain ⟨r0, hr0, hb⟩ := List.any_eq_true.mp hA
          have hr0id : r0.id = note.id := by simpa using hb
          obtain ⟨e0, he0, he0id⟩ := (ih note.id).mp ⟨r0, hr0, hr0id⟩
          have hB : db.embeddings.any (fun e => e.1 == note.id) = true :=
            List.any_eq_true.mpr ⟨e0, he0, by simpa using he0id⟩
          rw [hA, hB]
        · have hB : ¬db.embeddings.any (fun e => e.1 == note.id) = true := by
            intro hB
            obtain ⟨e0, he0, hb⟩ := List.any_eq_true.mp hB
            have he0id : e0.1 = note.id := by simpa using hb
            obtain ⟨r0, hr0, hr0id⟩ := (ih note.id).mpr ⟨e0, he0, he0id⟩
            exact hA (List.any_eq_true.mpr ⟨r0, hr0, by simpa using hr0id⟩)
          rw [Bool.eq_false_iff.mpr hA, Bool.eq_false_iff.mpr hB]
      dsimp only
      rw [← hAB]
      by_cases hA : db.notes.any (fun r => r.id == note.id) = true
      · rw [if_pos hA, if_pos hA]
        rw [exists_key_map_replace (fun r : NotesRow => r.id) _ note.id rfl
            db.notes id,
          exists_key_map_replace (fun e : String × List ℝ => e.1) _ note.id rfl
            db.embeddings id]
        exact ih id
      · rw [if_neg hA, if_neg hA]
        rw [exists_key_append (fun r : NotesRow => r.id) _ note.id rfl
            db.notes id,
          exists_key_append (fun e : String × List ℝ => e.1) _ note.id rfl
            db.embeddings id,
          ih id]
  | delete db id0 hr ih =>
    intro id
    by_cases hid : id = id0
    · subst hid
      exact iff_of_false (delete_note_removes db id).1
        (delete_note_removes db id).2
    · show (∃ row ∈ db.notes.filter (fun r => r.id != id0), row.id = id) ↔
        (∃ e ∈ db.embeddings.filter (fun e => e.1 != id0), e.1 = id)
      rw [exists_key_filter_ne (fun r : NotesRow => r.id) id0 db.notes id hid,
        exists_key_filter_ne (fun e : String × List ℝ => e.1) id0
          db.embeddings id hid]
      exact ih id
  | write_meta db key value hr ih => exact ih

/-- C1: on every reachable store state, an embeddings entry exists for an
identifier if and only if a notes entry with the same identifier exists;
in particular, after `delete_note id` neither the notes row nor the
embeddings row for `id` remains — the deletion of the document cascades
to its embedding (the cascade itself is modelled from the spec, see
`delete_note`). -/
theorem notes_iff_embeddings_cascade (codec : JsonCodec) (db : DBState)
    (h : Reachable codec db) (id : String) :
    ((∃ row ∈ db.notes, row.id = id) ↔ (∃ e ∈ db.embeddings, e.1 = id)) ∧
    (¬∃ row ∈ (delete_note db id).notes, row.id = id) ∧
    (¬∃ e ∈ (delete_note db id).embeddings, e.1 = id) :=
  ⟨reachable_notes_iff_embeddings codec db h id,
   (delete_note_removes db id).1, (delete_note_removes db id).2⟩

/-- Witness for C1 at the concrete store obtained by upserting the record
`recA` (id `a`) into a fresh store, then considering `delete_note "a"`. -/
theorem notes_iff_embeddings_cascade_witness :
    Reachable constCodec dbA ∧
    (((∃ row ∈ dbA.notes, row.id = "a") ↔
        (∃ e ∈ dbA.embeddings, e.1 = "a")) ∧
      (¬∃ row ∈ (delete_note dbA "a").notes, row.id = "a") ∧
      (¬∃ e ∈ (delete_note dbA "a").embeddings, e.1 = "a")) := by
  have hreach : Reachable constCodec dbA :=
    Reachable.upsert_ok DBState.empty recA [] 0 dbA Reachable.empty (by rfl)
  exact ⟨hreach, notes_iff_embeddings_cascade constCodec dbA hreach "a"⟩

end Elysium
